import Mathlib

/-!
# pingg: rolling statistics window and latency extractor

A shallow embedding of `cmd/pingg/main.go`.

* Go `float64` values are modelled by exact rationals (`ℚ`): rounding is
  abstracted away, the arithmetic is exact. The one place where the range of
  `float64` decides the control flow, the range error of
  `strconv.ParseFloat`, is kept.
* Go `int` is taken to be 64 bits wide and modelled by `Int`; the two places
  where the source adds 1 to `CurrSize` go through `wrapInt`, the two's
  complement wrap-around. A capacity is a Go `int`, hence at most `maxInt`.
* A run-time panic (index or slice bounds out of range) is the result `none`.
* Strings are lists of characters.
-/

set_option autoImplicit false

namespace Pingg

/-! ## Machine integers -/

/-- Largest value of a 64-bit Go `int`. -/
def maxInt : Int := 9223372036854775807

/-- Result of a Go `int` addition: the mathematical result reduced into
`[-2^63, 2^63)`. -/
def wrapInt (x : Int) : Int :=
  (x + 9223372036854775808) % 18446744073709551616 - 9223372036854775808

/-! ## The rolling statistics window -/

/-- The `Ping` struct of the source. `Data` is a slice of series; the history
is the series `Data[0]`. -/
structure Ping where
  Data : List (List ℚ)
  CurrSize : Int
  MaxSize : Int
  Avg : ℚ
  Max : ℚ
  Min : ℚ
  deriving DecidableEq

/-- `NewPing`: `make([][]float64, 1)` is a slice holding one empty series. -/
def NewPing (maxSize : Int) : Ping :=
  { Data := [[]], CurrSize := 0, MaxSize := maxSize, Avg := 0, Max := 0, Min := 0 }

/-- First statement of `AddData`: the aggregate update, guarded by
`p.CurrSize > 2`. Under the guard the divisor is never zero
(`divisor_ne_zero`), so the division is the one of the source. -/
def updateAggregates (p : Ping) (d : ℚ) : Ping :=
  if p.CurrSize > 2 then
    { p with
      Avg := (p.Avg * (p.CurrSize : ℚ) + d) / ((wrapInt (p.CurrSize + 1) : Int) : ℚ)
      Max := max p.Max d
      Min := if p.Min = 0 then d else min p.Min d }
  else p

/-- Second statement of `AddData`: the history update. Reading `p.Data[0]`
panics when `Data` has no series, and `p.Data[0][1:]` panics when the
history is empty. -/
def updateHistory (p : Ping) (d : ℚ) : Option Ping :=
  match p.Data with
  | [] => none
  | h :: rest =>
    if p.CurrSize < p.MaxSize then
      some { p with Data := (h ++ [d]) :: rest, CurrSize := wrapInt (p.CurrSize + 1) }
    else
      match h with
      | [] => none
      | _ :: t => some { p with Data := (t ++ [d]) :: rest }

/-- `(*Ping).AddData`. -/
def AddData (p : Ping) (d : ℚ) : Option Ping :=
  updateHistory (updateAggregates p d) d

/-- Calling `AddData` on each sample of a sequence, in order. -/
def addAll : Ping → List ℚ → Option Ping
  | p, [] => some p
  | p, d :: ds => (AddData p d).bind fun q => addAll q ds

/-! ## The latency extractor

`parseLatency` applies the pattern `(\d+\.?\d+?)\s*?ms` with
`FindStringSubmatch` and converts capture group 1 with `strconv.ParseFloat`.
Go's `regexp` returns the leftmost match and, among the matches starting
there, the one a backtracking search finds first: a greedy operator tries
the longer alternative first, a lazy one the shorter. The functions below
are that search for the pieces of the pattern, right to left. -/

/-- The class `\d` of Go's `regexp`: the ASCII digits. -/
def isDigit (c : Char) : Bool := c.isDigit

/-- The class `\s` of Go's `regexp`: tab, newline, form feed, carriage
return and space. -/
def isSpace (c : Char) : Bool :=
  c = '\t' || c = '\n' || c = Char.ofNat 12 || c = '\r' || c = ' '

/-- The literal `ms` at the start of the input. -/
def litMs : List Char → Bool
  | c₁ :: c₂ :: _ => c₁ = 'm' && c₂ = 's'
  | _ => false

/-- The piece `\s*?ms`: lazy, so the literal is tried before another
whitespace character is consumed. -/
def lazySpaceMs : List Char → Bool
  | [] => false
  | c :: cs => litMs (c :: cs) || (isSpace c && lazySpaceMs cs)

/-- The piece `\d+?` followed by `\s*?ms`: at least one digit, and after each
digit the rest of the pattern is tried before another digit is consumed.
Returns the digits consumed. -/
def lazyDigits : List Char → Option (List Char)
  | [] => none
  | c :: cs =>
    if isDigit c then
      if lazySpaceMs cs then some [c] else (lazyDigits cs).map (c :: ·)
    else none

/-- The piece `\.?` followed by `\d+?\s*?ms`: greedy, so the dot is consumed
first when there is one. Returns the text consumed inside the group. -/
def optDot : List Char → Option (List Char)
  | [] => lazyDigits []
  | c :: cs =>
    if c = '.' then
      match lazyDigits cs with
      | some g => some (c :: g)
      | none => lazyDigits (c :: cs)
    else lazyDigits (c :: cs)

/-- The whole pattern anchored at the start of the input: `\d+` is greedy, so
after each digit another digit is tried before the rest of the pattern.
Returns the text of capture group 1. -/
def greedyDigits : List Char → Option (List Char)
  | [] => none
  | c :: cs =>
    if isDigit c then
      match greedyDigits cs with
      | some g => some (c :: g)
      | none => (optDot cs).map (c :: ·)
    else none

/-- The call `re.FindStringSubmatch(timeStr)`, reduced to what the caller
uses: `none` is the nil result (length 0), `some g` is a result of length 2
whose element 1 is `g`. The leftmost starting position with a match wins. -/
def FindStringSubmatch : List Char → Option (List Char)
  | [] => none
  | c :: cs =>
    match greedyDigits (c :: cs) with
    | some g => some g
    | none => FindStringSubmatch cs

/-- Value of a decimal digit character. -/
def digitVal (c : Char) : Nat := c.toNat - 48

/-- Value of a string of decimal digits. -/
def natOfDigits (l : List Char) : Nat :=
  l.foldl (fun n c => 10 * n + digitVal c) 0

/-- Smallest value that `strconv.ParseFloat(s, 64)` rejects with a range
error: half an ulp above the largest finite `float64`. -/
def float64Overflow : ℚ := 2 ^ 1024 - 2 ^ 970

/-- Exact value of a decimal literal `digits`, `digits.digits`, `digits.` or
`.digits` (the unsigned literals without exponent that `strconv.ParseFloat`
accepts; the pattern cannot capture anything else). -/
def decimalValue (s : List Char) : Option ℚ :=
  let ip := s.takeWhile isDigit
  match s.dropWhile isDigit with
  | [] => if ip = [] then none else some (natOfDigits ip : ℚ)
  | c :: fp =>
    if c = '.' ∧ fp.all isDigit ∧ (ip ≠ [] ∨ fp ≠ []) then
      some ((natOfDigits ip : ℚ) + (natOfDigits fp : ℚ) / 10 ^ fp.length)
    else none

/-- The call `strconv.ParseFloat(s, 64)` on such a literal: an error (`none`)
for a malformed literal or a value that overflows `float64`. Rounding to the
nearest `float64` is abstracted: the exact value is returned. -/
def ParseFloat (s : List Char) : Option ℚ :=
  match decimalValue s with
  | none => none
  | some v => if float64Overflow ≤ v then none else some v

/-- The two errors `parseLatency` builds with `fmt.Errorf`. -/
inductive LatencyError where
  | noMatch
  | convert
  deriving DecidableEq

/-- The function `parseLatency`: the returned pair of value and error. -/
def parseLatency (timeStr : List Char) : ℚ × Option LatencyError :=
  match FindStringSubmatch timeStr with
  | none => (0, some LatencyError.noMatch)
  | some timeValueStr =>
    match ParseFloat timeValueStr with
    | none => (0, some LatencyError.convert)
    | some timeValue => (timeValue, none)

/-- A numeral with integer digits `ip` and fraction digits `fp`: the text
`ip` when there is no fraction, `ip.fp` otherwise. -/
def numeral (ip fp : List Char) : List Char :=
  if fp = [] then ip else ip ++ '.' :: fp

/-- The number a numeral denotes. -/
def numeralValue (ip fp : List Char) : ℚ :=
  (natOfDigits ip : ℚ) + (natOfDigits fp : ℚ) / 10 ^ fp.length

/-! ## Basic facts about the window operations -/

theorem wrapInt_of_range (x : Int) (h1 : -9223372036854775808 ≤ x) (h2 : x ≤ maxInt) :
    wrapInt x = x := by
  unfold wrapInt
  unfold maxInt at h2
  omega

/-- The divisor `float64(p.CurrSize+1)` of the average is not zero when the
guard `p.CurrSize > 2` holds. -/
theorem divisor_ne_zero (c : Int) (h : c > 2) (hmax : c ≤ maxInt) :
    ((wrapInt (c + 1) : Int) : ℚ) ≠ 0 := by
  have : wrapInt (c + 1) ≠ 0 := by
    unfold wrapInt
    unfold maxInt at hmax
    omega
  exact_mod_cast this

@[simp] theorem updateAggregates_Data (p : Ping) (d : ℚ) :
    (updateAggregates p d).Data = p.Data := by
  unfold updateAggregates
  split <;> rfl

@[simp] theorem updateAggregates_CurrSize (p : Ping) (d : ℚ) :
    (updateAggregates p d).CurrSize = p.CurrSize := by
  unfold updateAggregates
  split <;> rfl

@[simp] theorem updateAggregates_MaxSize (p : Ping) (d : ℚ) :
    (updateAggregates p d).MaxSize = p.MaxSize := by
  unfold updateAggregates
  split <;> rfl

theorem updateAggregates_cold (p : Ping) (d : ℚ) (h : p.CurrSize ≤ 2) :
    updateAggregates p d = p := by
  unfold updateAggregates
  rw [if_neg (by omega)]

theorem addAll_append (p : Ping) (l : List ℚ) (d : ℚ) :
    addAll p (l ++ [d]) = (addAll p l).bind fun q => AddData q d := by
  induction l generalizing p with
  | nil =>
    simp only [List.nil_append, addAll, Option.some_bind]
    cases AddData p d <;> rfl
  | cons a l ih =>
    simp only [List.cons_append, addAll]
    cases AddData p a with
    | none => rfl
    | some q => simpa using ih q

/-- One call of `AddData` on a state whose history holds `CurrSize` samples,
below capacity: the sample is appended and `CurrSize` grows by one. -/
theorem AddData_grow (p : Ping) (d : ℚ) (h : List ℚ) (hD : p.Data = [h])
    (hC : p.CurrSize = h.length) (hlt : p.CurrSize < p.MaxSize) (hmax : p.MaxSize ≤ maxInt) :
    AddData p d = some { updateAggregates p d with
      Data := [h ++ [d]], CurrSize := p.CurrSize + 1 } := by
  have hw : wrapInt (p.CurrSize + 1) = p.CurrSize + 1 := by
    apply wrapInt_of_range <;> omega
  unfold AddData updateHistory
  simp [hD, hlt, hw]

/-- One call of `AddData` on a full window with a non-empty history: the
oldest sample is dropped and the new one appended. -/
theorem AddData_full (p : Ping) (d : ℚ) (a : ℚ) (t : List ℚ) (hD : p.Data = [a :: t])
    (hge : ¬ p.CurrSize < p.MaxSize) :
    AddData p d = some { updateAggregates p d with Data := [t ++ [d]] } := by
  unfold AddData updateHistory
  simp [hD, hge]

/-- Shape of the window after any sequence of calls, capacity at least 1:
the history is the sequence with all but its last `MaxSize` samples dropped,
and `CurrSize` is the smaller of the number of calls and the capacity. -/
theorem addAll_history (M : Int) (h1 : 1 ≤ M) (h2 : M ≤ maxInt) (l : List ℚ) :
    ∃ p, addAll (NewPing M) l = some p ∧ p.Data = [l.drop (l.length - M.toNat)] ∧
      p.CurrSize = min (l.length : Int) M ∧ p.MaxSize = M := by
  induction l using List.reverseRecOn with
  | nil =>
    refine ⟨NewPing M, rfl, ?_, ?_, rfl⟩
    · simp [NewPing]
    · simp only [NewPing, List.length_nil, Nat.cast_zero]
      omega
  | append_singleton l d ih =>
    obtain ⟨p, hp, hD, hC, hM⟩ := ih
    rw [addAll_append, hp, Option.some_bind]
    by_cases hlt : (l.length : Int) < M
    · have hk : l.length - M.toNat = 0 := by omega
      have hk1 : l.length + 1 - M.toNat = 0 := by omega
      rw [hk, List.drop_zero] at hD
      have hC1 : p.CurrSize = l.length := by omega
      refine ⟨_, AddData_grow p d l hD hC1 (by omega) (by omega), ?_, ?_, ?_⟩
      · simp [hk1]
      · simp only [List.length_append, List.length_singleton, Nat.cast_add, Nat.cast_one]
        omega
      · simpa using hM
    · have hC1 : p.CurrSize = M := by omega
      have hlen : (l.drop (l.length - M.toNat)).length = M.toNat := by
        rw [List.length_drop]
        omega
      cases hh : l.drop (l.length - M.toNat) with
      | nil =>
        rw [hh] at hlen
        simp only [List.length_nil] at hlen
        omega
      | cons a t =>
        rw [hh] at hD
        refine ⟨_, AddData_full p d a t hD (by omega), ?_, ?_, ?_⟩
        · have ht : t = l.drop (l.length - M.toNat + 1) := by
            have := congrArg List.tail hh
            simpa [List.tail_drop] using this.symm
          have hidx : (l ++ [d]).length - M.toNat = l.length - M.toNat + 1 := by
            simp only [List.length_append, List.length_singleton]
            omega
          have hle : l.length - M.toNat + 1 ≤ l.length := by omega
          simp only [hidx, ht]
          rw [List.drop_append_of_le_length hle]
        · simp only [updateAggregates_CurrSize, List.length_append, List.length_singleton,
            Nat.cast_add, Nat.cast_one]
          omega
        · simpa using hM

/-- Window below capacity: when the capacity is at least the number of
calls, the history is the whole sequence, `CurrSize` is the number of calls,
the aggregates are still zero after at most three calls, and `Avg` times the
number of calls is the sum of the samples from the 4th call on. -/
theorem addAll_warm (M : Int) (h2 : M ≤ maxInt) (l : List ℚ) (hl : (l.length : Int) ≤ M) :
    ∃ p, addAll (NewPing M) l = some p ∧ p.Data = [l] ∧ p.CurrSize = l.length ∧
      p.MaxSize = M ∧ (l.length ≤ 3 → p.Avg = 0 ∧ p.Max = 0 ∧ p.Min = 0) ∧
      p.Avg * (l.length : ℚ) = (l.drop 3).sum := by
  induction l using List.reverseRecOn with
  | nil =>
    refine ⟨NewPing M, rfl, rfl, rfl, rfl, fun _ => ⟨rfl, rfl, rfl⟩, ?_⟩
    simp
  | append_singleton l d ih =>
    simp only [List.length_append, List.length_singleton, Nat.cast_add, Nat.cast_one] at hl
    obtain ⟨p, hp, hD, hC, hM, hz, hA⟩ := ih (by omega)
    rw [addAll_append, hp, Option.some_bind]
    refine ⟨_, AddData_grow p d l hD hC (by omega) (by omega), rfl, ?_, ?_, ?_, ?_⟩
    · simp [hC]
    · simpa using hM
    · intro h3
      simp only [List.length_append, List.length_singleton] at h3
      rw [updateAggregates_cold p d (by omega)]
      exact hz (by omega)
    · by_cases hc : l.length ≤ 2
      · rw [updateAggregates_cold p d (by omega)]
        have h0 := (hz (by omega)).1
        have hdrop : List.drop 3 (l ++ [d]) = [] := by
          apply List.drop_eq_nil_of_le
          simp only [List.length_append, List.length_singleton]
          omega
        simp [h0, hdrop]
      · have hw : wrapInt ((l.length : Int) + 1) = (l.length : Int) + 1 := by
          apply wrapInt_of_range <;> omega
        have hgt : p.CurrSize > 2 := by omega
        have hne : ((l.length : ℚ) + 1) ≠ 0 := by positivity
        have hdrop : List.drop 3 (l ++ [d]) = List.drop 3 l ++ [d] :=
          List.drop_append_of_le_length (by omega)
        rw [updateAggregates, if_pos hgt]
        simp only [hw, hC, List.length_append, List.length_singleton, Nat.cast_add,
          Nat.cast_one, Int.cast_add, Int.cast_natCast, Int.cast_one, hdrop, List.sum_append,
          List.sum_singleton]
        rw [div_mul_cancel₀ _ hne, hA]

/-! ## Facts about the pattern search -/

theorem isDigit_ne_m (c : Char) (h : isDigit c = true) : c ≠ 'm' := by
  rintro rfl
  exact absurd h (by decide)

theorem isDigit_ne_dot (c : Char) (h : isDigit c = true) : c ≠ '.' := by
  rintro rfl
  exact absurd h (by decide)

theorem isDigit_not_space (c : Char) (h : isDigit c = true) : isSpace c = false := by
  cases hs : isSpace c with
  | false => rfl
  | true =>
    simp only [isSpace, Bool.or_eq_true, decide_eq_true_eq] at hs
    rcases hs with (((rfl | rfl) | rfl) | rfl) | rfl <;> exact absurd h (by decide)

theorem lazySpaceMs_ms (suf : List Char) : lazySpaceMs ('m' :: 's' :: suf) = true := by
  simp [lazySpaceMs, litMs]

theorem lazySpaceMs_digit (c : Char) (cs : List Char) (h : isDigit c = true) :
    lazySpaceMs (c :: cs) = false := by
  have hm := isDigit_ne_m c h
  have hs := isDigit_not_space c h
  cases cs <;> simp [lazySpaceMs, litMs, hm, hs]

theorem lazyDigits_nondigit (c : Char) (cs : List Char) (h : isDigit c = false) :
    lazyDigits (c :: cs) = none := by
  simp [lazyDigits, h]

theorem greedyDigits_nondigit (c : Char) (cs : List Char) (h : isDigit c = false) :
    greedyDigits (c :: cs) = none := by
  simp [greedyDigits, h]

theorem lazyDigits_cons (c : Char) (cs : List Char) (h : isDigit c = true) :
    lazyDigits (c :: cs) =
      if lazySpaceMs cs then some [c] else (lazyDigits cs).map (c :: ·) := by
  rw [lazyDigits, if_pos h]

theorem optDot_nondot (c : Char) (cs : List Char) (h : c ≠ '.') :
    optDot (c :: cs) = lazyDigits (c :: cs) := by
  rw [optDot, if_neg h]

theorem greedyDigits_cons (c : Char) (cs : List Char) (h : isDigit c = true) :
    greedyDigits (c :: cs) =
      match greedyDigits cs with
      | some g => some (c :: g)
      | none => (optDot cs).map (c :: ·) := by
  rw [greedyDigits, if_pos h]

/-- The lazy digit run stops exactly at the unit marker. -/
theorem lazyDigits_digits (fp suf : List Char) (hne : fp ≠ [])
    (hd : ∀ c ∈ fp, isDigit c = true) :
    lazyDigits (fp ++ 'm' :: 's' :: suf) = some fp := by
  induction fp with
  | nil => exact absurd rfl hne
  | cons c fp ih =>
    have hc : isDigit c = true := hd c (List.mem_cons_self _ _)
    cases fp with
    | nil =>
      rw [List.singleton_append, lazyDigits_cons c _ hc, lazySpaceMs_ms]
      rfl
    | cons c2 fp2 =>
      have hc2 : isDigit c2 = true := hd c2 (by simp)
      have ih2 := ih (by simp) (fun x hx => hd x (List.mem_cons_of_mem _ hx))
      simp only [List.cons_append] at ih2 ⊢
      rw [lazyDigits_cons c _ hc, lazySpaceMs_digit c2 _ hc2, ih2]
      rfl

/-- The anchored search on `digits.digits` followed by the unit marker. -/
theorem greedyDigits_fraction (ip fp suf : List Char) (hne : ip ≠ [])
    (hd : ∀ c ∈ ip, isDigit c = true) (hfne : fp ≠ []) (hfd : ∀ c ∈ fp, isDigit c = true) :
    greedyDigits (ip ++ '.' :: (fp ++ 'm' :: 's' :: suf)) = some (ip ++ '.' :: fp) := by
  induction ip with
  | nil => exact absurd rfl hne
  | cons c ip ih =>
    have hc : isDigit c = true := hd c (List.mem_cons_self _ _)
    cases ip with
    | nil =>
      have hdot : greedyDigits ('.' :: (fp ++ 'm' :: 's' :: suf)) = none :=
        greedyDigits_nondigit _ _ (by decide)
      have hopt : optDot ('.' :: (fp ++ 'm' :: 's' :: suf)) = some ('.' :: fp) := by
        rw [optDot, if_pos rfl, lazyDigits_digits fp suf hfne hfd]
      rw [List.singleton_append, greedyDigits_cons c _ hc, hdot]
      simp only [hopt, Option.map_some', List.singleton_append]
    | cons c2 ip2 =>
      have ih2 := ih (by simp) (fun x hx => hd x (List.mem_cons_of_mem _ hx))
      simp only [List.cons_append] at ih2 ⊢
      rw [greedyDigits_cons c _ hc, ih2]

/-- A single digit before the unit marker is not matched at its position:
the pattern needs two digits. -/
theorem greedyDigits_single (c : Char) (suf : List Char) (hc : isDigit c = true) :
    greedyDigits (c :: 'm' :: 's' :: suf) = none := by
  have hm : greedyDigits ('m' :: 's' :: suf) = none := greedyDigits_nondigit _ _ (by decide)
  have hl : lazyDigits ('m' :: 's' :: suf) = none := lazyDigits_nondigit _ _ (by decide)
  rw [greedyDigits_cons c _ hc, hm]
  simp only [optDot_nondot 'm' _ (by decide), hl, Option.map_none']

/-- The anchored search on two or more digits followed by the unit marker. -/
theorem greedyDigits_integer (ip suf : List Char) (h2 : 2 ≤ ip.length)
    (hd : ∀ c ∈ ip, isDigit c = true) :
    greedyDigits (ip ++ 'm' :: 's' :: suf) = some ip := by
  induction ip with
  | nil => simp at h2
  | cons c ip ih =>
    have hc : isDigit c = true := hd c (List.mem_cons_self _ _)
    cases ip with
    | nil => simp at h2
    | cons c2 ip2 =>
      have hc2 : isDigit c2 = true := hd c2 (by simp)
      cases ip2 with
      | nil =>
        have h1 := greedyDigits_single c2 suf hc2
        have hl : lazyDigits (c2 :: 'm' :: 's' :: suf) = some [c2] :=
          lazyDigits_digits [c2] suf (by simp) (by simpa using hc2)
        have hne : c2 ≠ '.' := isDigit_ne_dot c2 hc2
        simp only [List.cons_append, List.nil_append]
        rw [greedyDigits_cons c _ hc, h1]
        simp only [optDot_nondot c2 _ hne, hl, Option.map_some']
      | cons c3 ip3 =>
        have ih2 := ih (by simp) (fun x hx => hd x (List.mem_cons_of_mem _ hx))
        simp only [List.cons_append] at ih2 ⊢
        rw [greedyDigits_cons c _ hc, ih2]

theorem FindStringSubmatch_of_greedy (x g : List Char) (h : greedyDigits x = some g) :
    FindStringSubmatch x = some g := by
  cases x with
  | nil => simp [greedyDigits] at h
  | cons c cs => simp [FindStringSubmatch, h]

/-- No match starts at a character that is not a digit. -/
theorem FindStringSubmatch_skip (pre x : List Char) (hpre : ∀ c ∈ pre, isDigit c = false) :
    FindStringSubmatch (pre ++ x) = FindStringSubmatch x := by
  induction pre with
  | nil => rfl
  | cons c pre ih =>
    have hc : isDigit c = false := hpre c (List.mem_cons_self _ _)
    simp only [List.cons_append, FindStringSubmatch, greedyDigits_nondigit _ _ hc]
    exact ih (fun x hx => hpre x (List.mem_cons_of_mem _ hx))

theorem decimalValue_integer (ip : List Char) (hne : ip ≠ [])
    (hd : ∀ c ∈ ip, isDigit c = true) : decimalValue ip = some (natOfDigits ip : ℚ) := by
  have ht : ip.takeWhile isDigit = ip := List.takeWhile_eq_self_iff.mpr hd
  have hdr : ip.dropWhile isDigit = [] := List.dropWhile_eq_nil_iff.mpr hd
  simp [decimalValue, ht, hdr, hne]

theorem decimalValue_fraction (ip fp : List Char) (hd : ∀ c ∈ ip, isDigit c = true)
    (hfne : fp ≠ []) (hfd : ∀ c ∈ fp, isDigit c = true) :
    decimalValue (ip ++ '.' :: fp) =
      some ((natOfDigits ip : ℚ) + (natOfDigits fp : ℚ) / 10 ^ fp.length) := by
  have hdot : ¬ (isDigit '.' = true) := by decide
  have ht : (ip ++ '.' :: fp).takeWhile isDigit = ip := by
    rw [List.takeWhile_append_of_pos hd, List.takeWhile_cons_of_neg hdot, List.append_nil]
  have hdr : (ip ++ '.' :: fp).dropWhile isDigit = '.' :: fp := by
    rw [List.dropWhile_append_of_pos hd, List.dropWhile_cons_of_neg hdot]
  have hall : fp.all isDigit = true := List.all_eq_true.mpr hfd
  simp [decimalValue, ht, hdr, hall, hfne]

theorem litMs_has_ms (s : List Char) (h : litMs s = true) : ['m', 's'] <:+: s := by
  match s, h with
  | c₁ :: c₂ :: rest, h =>
    simp only [litMs, Bool.and_eq_true, decide_eq_true_eq] at h
    obtain ⟨rfl, rfl⟩ := h
    exact (List.prefix_append ['m', 's'] rest).isInfix

theorem lazySpaceMs_has_ms (s : List Char) (h : lazySpaceMs s = true) : ['m', 's'] <:+: s := by
  induction s with
  | nil => simp [lazySpaceMs] at h
  | cons c cs ih =>
    simp only [lazySpaceMs, Bool.or_eq_true, Bool.and_eq_true] at h
    rcases h with h | ⟨_, h⟩
    · exact litMs_has_ms _ h
    · exact List.infix_cons (ih h)

theorem lazyDigits_has_ms (s g : List Char) (h : lazyDigits s = some g) : ['m', 's'] <:+: s := by
  induction s generalizing g with
  | nil => simp [lazyDigits] at h
  | cons c cs ih =>
    by_cases hc : isDigit c = true
    · rw [lazyDigits_cons c cs hc] at h
      by_cases hs : lazySpaceMs cs = true
      · exact List.infix_cons (lazySpaceMs_has_ms cs hs)
      · rw [if_neg hs] at h
        cases hl : lazyDigits cs with
        | none => simp [hl] at h
        | some g2 => exact List.infix_cons (ih g2 hl)
    · simp [lazyDigits, hc] at h

theorem optDot_has_ms (s g : List Char) (h : optDot s = some g) : ['m', 's'] <:+: s := by
  cases s with
  | nil => simp [optDot, lazyDigits] at h
  | cons c cs =>
    by_cases hc : c = '.'
    · rw [optDot, if_pos hc] at h
      cases hl : lazyDigits cs with
      | none =>
        rw [hl] at h
        exact lazyDigits_has_ms _ g h
      | some g2 => exact List.infix_cons (lazyDigits_has_ms cs g2 hl)
    · rw [optDot_nondot c cs hc] at h
      exact lazyDigits_has_ms _ g h

theorem greedyDigits_has_ms (s g : List Char) (h : greedyDigits s = some g) :
    ['m', 's'] <:+: s := by
  induction s generalizing g with
  | nil => simp [greedyDigits] at h
  | cons c cs ih =>
    by_cases hc : isDigit c = true
    · rw [greedyDigits_cons c cs hc] at h
      cases hg : greedyDigits cs with
      | some g2 => exact List.infix_cons (ih g2 hg)
      | none =>
        rw [hg] at h
        cases ho : optDot cs with
        | none => simp [ho] at h
        | some g2 => exact List.infix_cons (optDot_has_ms cs g2 ho)
    · simp [greedyDigits, hc] at h

/-- Every match of the pattern contains the unit marker. -/
theorem FindStringSubmatch_has_ms (s g : List Char) (h : FindStringSubmatch s = some g) :
    ['m', 's'] <:+: s := by
  induction s with
  | nil => simp [FindStringSubmatch] at h
  | cons c cs ih =>
    rw [FindStringSubmatch] at h
    cases hg : greedyDigits (c :: cs) with
    | some g2 => exact greedyDigits_has_ms _ g2 hg
    | none =>
      rw [hg] at h
      exact List.infix_cons (ih h)

/-! ## Facts about a single `AddData` call -/

/-- What a completed call leaves behind: the aggregates computed by the
first statement, the capacity unchanged, `CurrSize` unchanged or grown by
one, and a non-empty history. -/
theorem AddData_result (p q : Ping) (d : ℚ) (h : AddData p d = some q) :
    q.Avg = (updateAggregates p d).Avg ∧ q.Max = (updateAggregates p d).Max ∧
    q.Min = (updateAggregates p d).Min ∧ q.MaxSize = p.MaxSize ∧
    (q.CurrSize = p.CurrSize ∨
      (p.CurrSize < p.MaxSize ∧ q.CurrSize = wrapInt (p.CurrSize + 1))) ∧
    ∃ hist rest, q.Data = hist :: rest ∧ hist ≠ [] := by
  unfold AddData updateHistory at h
  split at h
  · exact absurd h (by simp)
  · split at h
    · rename_i hlt
      simp only [updateAggregates_CurrSize, updateAggregates_MaxSize] at hlt
      cases h
      exact ⟨rfl, rfl, rfl, by simp, Or.inr ⟨hlt, by simp⟩, _, _, rfl, by simp⟩
    · split at h
      · exact absurd h (by simp)
      · cases h
        exact ⟨rfl, rfl, rfl, by simp, Or.inl (by simp), _, _, rfl, by simp⟩

/-- A call on a window whose history is not empty completes. -/
theorem AddData_of_nonempty (p : Ping) (d : ℚ) (hist : List ℚ) (rest : List (List ℚ))
    (hD : p.Data = hist :: rest) (hne : hist ≠ []) : ∃ q, AddData p d = some q := by
  unfold AddData updateHistory
  simp only [updateAggregates_Data, hD, updateAggregates_CurrSize, updateAggregates_MaxSize]
  split
  · exact ⟨_, rfl⟩
  · cases hist with
    | nil => exact absurd rfl hne
    | cons a t => exact ⟨_, rfl⟩

/-! ## The rolling window: history, size, failure -/

/-- C1: for every capacity `MaxSize ≥ 1` (a Go `int`) and every sequence of
samples, the calls of `AddData` on `NewPing(MaxSize)` all complete and leave
as history `Data[0]` exactly the last `min(N, MaxSize)` samples in arrival
order; with capacity 2 the samples 1, 2, 3 leave the history 2, 3. -/
theorem AddData_keeps_last_samples (M : Int) (h1 : 1 ≤ M) (h2 : M ≤ maxInt) (l : List ℚ) :
    (∃ p, addAll (NewPing M) l = some p ∧
      p.Data = [l.drop (l.length - min l.length M.toNat)]) ∧
    (∃ q, addAll (NewPing 2) [1, 2, 3] = some q ∧ q.Data = [[2, 3]]) := by
  constructor
  · obtain ⟨p, hp, hD, _, _⟩ := addAll_history M h1 h2 l
    refine ⟨p, hp, ?_⟩
    rw [hD]
    congr 2
    omega
  · obtain ⟨q, hq, hD, _, _⟩ := addAll_history 2 (by decide) (by decide) [1, 2, 3]
    exact ⟨q, hq, by simpa using hD⟩

theorem AddData_keeps_last_samples_witness :
    (1 : Int) ≤ 3 ∧ (3 : Int) ≤ maxInt ∧
    ((∃ p, addAll (NewPing 3) [5, 6, 7, 8, 9] = some p ∧
      p.Data = [([5, 6, 7, 8, 9] : List ℚ).drop
        (([5, 6, 7, 8, 9] : List ℚ).length - min ([5, 6, 7, 8, 9] : List ℚ).length
          (3 : Int).toNat)]) ∧
    (∃ q, addAll (NewPing 2) [1, 2, 3] = some q ∧ q.Data = [[2, 3]])) :=
  ⟨by decide, by decide, AddData_keeps_last_samples 3 (by decide) (by decide) [5, 6, 7, 8, 9]⟩

/-- C6: for every capacity `MaxSize ≥ 1` (a Go `int`), after any sequence of
`N` calls of `AddData` on `NewPing(MaxSize)`: `0 ≤ CurrSize ≤ MaxSize`,
`CurrSize = min(N, MaxSize)`, and `CurrSize` is the number of samples held in
the history `Data[0]`. -/
theorem CurrSize_counts_history (M : Int) (h1 : 1 ≤ M) (h2 : M ≤ maxInt) (l : List ℚ) :
    ∃ p hist, addAll (NewPing M) l = some p ∧ p.MaxSize = M ∧ p.Data = [hist] ∧
      0 ≤ p.CurrSize ∧ p.CurrSize ≤ p.MaxSize ∧ p.CurrSize = min (l.length : Int) M ∧
      p.CurrSize = hist.length := by
  obtain ⟨p, hp, hD, hC, hM⟩ := addAll_history M h1 h2 l
  refine ⟨p, _, hp, hM, hD, ?_, ?_, hC, ?_⟩
  · omega
  · omega
  · rw [hC, List.length_drop]
    omega

theorem CurrSize_counts_history_witness :
    (1 : Int) ≤ 2 ∧ (2 : Int) ≤ maxInt ∧
    ∃ p hist, addAll (NewPing 2) [7, 8, 9] = some p ∧ p.MaxSize = 2 ∧ p.Data = [hist] ∧
      0 ≤ p.CurrSize ∧ p.CurrSize ≤ p.MaxSize ∧
      p.CurrSize = min ((([7, 8, 9] : List ℚ).length : Nat) : Int) 2 ∧
      p.CurrSize = hist.length :=
  ⟨by decide, by decide, CurrSize_counts_history 2 (by decide) (by decide) [7, 8, 9]⟩

/-- C7, as stated, fails: on `NewPing(0)` the first `AddData` takes the
branch `p.Data[0][1:]` on an empty history and panics. -/
theorem AddData_panics_at_capacity_zero : AddData (NewPing 0) 1 = none := by
  decide

/-- C7, amended: for every capacity `maxSize ≥ 1` (a Go `int`), every call of
`AddData` in every sequence of calls on `NewPing(maxSize)` completes without
a run-time panic. -/
theorem AddData_never_panics (M : Int) (h1 : 1 ≤ M) (h2 : M ≤ maxInt) (l : List ℚ) (d : ℚ) :
    ∃ p, addAll (NewPing M) l = some p ∧ (AddData p d).isSome = true := by
  obtain ⟨p, hp, _⟩ := addAll_history M h1 h2 l
  obtain ⟨q, hq, _⟩ := addAll_history M h1 h2 (l ++ [d])
  rw [addAll_append, hp, Option.some_bind] at hq
  exact ⟨p, hp, by rw [hq]; rfl⟩

theorem AddData_never_panics_witness :
    (1 : Int) ≤ 1 ∧ (1 : Int) ≤ maxInt ∧
    ∃ p, addAll (NewPing 1) [4, 5] = some p ∧ (AddData p 6).isSome = true :=
  ⟨by decide, by decide, AddData_never_panics 1 (by decide) (by decide) [4, 5] 6⟩

/-! ## The rolling window: aggregates -/

/-- C8: on a fresh window of capacity 100 the samples 30, 30, 10, 50, 20
give `CurrSize = 5` and the history 30, 30, 10, 50, 20; the aggregates are
0, 0, 0 after each of the calls 1 to 3, `Avg = 12.5`, `Max = 50`, `Min = 50`
after call 4, and `Avg = 14`, `Max = 50`, `Min = 20` after call 5. -/
theorem AddData_trace_capacity_100 :
    (∃ p, addAll (NewPing 100) [30] = some p ∧ p.Avg = 0 ∧ p.Max = 0 ∧ p.Min = 0) ∧
    (∃ p, addAll (NewPing 100) [30, 30] = some p ∧ p.Avg = 0 ∧ p.Max = 0 ∧ p.Min = 0) ∧
    (∃ p, addAll (NewPing 100) [30, 30, 10] = some p ∧ p.Avg = 0 ∧ p.Max = 0 ∧ p.Min = 0) ∧
    (∃ p, addAll (NewPing 100) [30, 30, 10, 50] = some p ∧
      p.Avg = 25 / 2 ∧ p.Max = 50 ∧ p.Min = 50) ∧
    (∃ p, addAll (NewPing 100) [30, 30, 10, 50, 20] = some p ∧
      p.Avg = 14 ∧ p.Max = 50 ∧ p.Min = 20 ∧ p.CurrSize = 5 ∧
      p.Data = [[30, 30, 10, 50, 20]]) := by
  refine ⟨?_, ?_, ?_, ?_, ?_⟩ <;>
    simp [addAll, AddData, updateAggregates, updateHistory, NewPing, wrapInt] <;> norm_num

/-- C10: for every `N ≥ 4` and every sequence of `N` samples added to a fresh
window of capacity at least `N`, `Avg * N` is the sum of the samples of the
calls 4 to `N`: `Avg` is that sum divided by the number `N` of all calls. -/
theorem Avg_closed_form (M : Int) (h2 : M ≤ maxInt) (l : List ℚ) (h4 : 4 ≤ l.length)
    (hl : (l.length : Int) ≤ M) :
    ∃ p, addAll (NewPing M) l = some p ∧ p.Avg * (l.length : ℚ) = (l.drop 3).sum ∧
      p.Avg = (l.drop 3).sum / (l.length : ℚ) := by
  obtain ⟨p, hp, _, _, _, _, hA⟩ := addAll_warm M h2 l hl
  have hne : (l.length : ℚ) ≠ 0 := by
    have : 0 < l.length := by omega
    positivity
  exact ⟨p, hp, hA, by rw [← hA, mul_div_cancel_right₀ _ hne]⟩

theorem Avg_closed_form_witness :
    (6 : Int) ≤ maxInt ∧ 4 ≤ ([1, 2, 3, 10, 20] : List ℚ).length ∧
    ((([1, 2, 3, 10, 20] : List ℚ).length : Nat) : Int) ≤ 6 ∧
    ∃ p, addAll (NewPing 6) [1, 2, 3, 10, 20] = some p ∧
      p.Avg * ((([1, 2, 3, 10, 20] : List ℚ).length : Nat) : ℚ)
        = (([1, 2, 3, 10, 20] : List ℚ).drop 3).sum ∧
      p.Avg = (([1, 2, 3, 10, 20] : List ℚ).drop 3).sum
        / ((([1, 2, 3, 10, 20] : List ℚ).length : Nat) : ℚ) :=
  ⟨by decide, by decide, by decide,
    Avg_closed_form 6 (by decide) [1, 2, 3, 10, 20] (by decide) (by decide)⟩

/-- C3 at the input that shows the divergence: capacity 100, samples
30, 30, 10, 50. Only the 4th sample has contributed, its mean is 50, and
`Avg` is 12.5. -/
theorem Avg_is_not_mean_of_contributed :
    ∃ p, addAll (NewPing 100) [30, 30, 10, 50] = some p ∧ p.Avg = 25 / 2 ∧
      p.Avg ≠ (([30, 30, 10, 50] : List ℚ).drop 3).sum / (4 - 3) := by
  simp [addAll, AddData, updateAggregates, updateHistory, NewPing, wrapInt]
  norm_num

/-- C2: `AddData` leaves `Avg`, `Max` and `Min` alone whenever
`CurrSize ≤ 2` before the call; on a fresh window of capacity at least 3 the
aggregates are still 0 after each of the first three calls, and the 4th call
gives `Avg = s4 / 4`, `Max = max(0, s4)` and `Min = s4`. -/
theorem AddData_warm_up (M : Int) (h3 : 3 ≤ M) (h2 : M ≤ maxInt) :
    (∀ (p q : Ping) (d : ℚ), p.CurrSize ≤ 2 → AddData p d = some q →
      q.Avg = p.Avg ∧ q.Max = p.Max ∧ q.Min = p.Min) ∧
    (∀ l : List ℚ, l.length ≤ 3 →
      ∃ p, addAll (NewPing M) l = some p ∧ p.Avg = 0 ∧ p.Max = 0 ∧ p.Min = 0) ∧
    (∀ s1 s2 s3 s4 : ℚ, ∃ p, addAll (NewPing M) [s1, s2, s3, s4] = some p ∧
      p.Avg = s4 / 4 ∧ p.Max = max 0 s4 ∧ p.Min = s4) := by
  refine ⟨?_, ?_, ?_⟩
  · intro p q d hc h
    obtain ⟨hA, hX, hN, _⟩ := AddData_result p q d h
    rw [updateAggregates_cold p d hc] at hA hX hN
    exact ⟨hA, hX, hN⟩
  · intro l hl
    obtain ⟨p, hp, _, _, _, hz, _⟩ := addAll_warm M h2 l (by omega)
    exact ⟨p, hp, hz hl⟩
  · intro s1 s2 s3 s4
    obtain ⟨p, hp, hD, hC, _, hz, _⟩ := addAll_warm M h2 [s1, s2, s3] (by simpa using h3)
    obtain ⟨hA, hX, hN⟩ := hz (by simp)
    obtain ⟨q, hq⟩ := AddData_of_nonempty p s4 _ _ hD (by simp)
    have hadd : addAll (NewPing M) [s1, s2, s3, s4] = some q := by
      have := addAll_append (NewPing M) [s1, s2, s3] s4
      rw [hp, Option.some_bind, hq] at this
      simpa using this
    obtain ⟨hA', hX', hN', _⟩ := AddData_result p q s4 hq
    have hC3 : p.CurrSize = 3 := by simpa using hC
    have hw : wrapInt 4 = 4 := by decide
    refine ⟨q, hadd, ?_, ?_, ?_⟩
    · rw [hA', updateAggregates, if_pos (by omega)]
      simp [hA, hC3, hw]
    · rw [hX', updateAggregates, if_pos (by omega)]
      simp [hX]
    · rw [hN', updateAggregates, if_pos (by omega)]
      simp [hN]

theorem AddData_warm_up_witness :
    (3 : Int) ≤ 3 ∧ (3 : Int) ≤ maxInt ∧
    ((∀ (p q : Ping) (d : ℚ), p.CurrSize ≤ 2 → AddData p d = some q →
      q.Avg = p.Avg ∧ q.Max = p.Max ∧ q.Min = p.Min) ∧
    (∀ l : List ℚ, l.length ≤ 3 →
      ∃ p, addAll (NewPing 3) l = some p ∧ p.Avg = 0 ∧ p.Max = 0 ∧ p.Min = 0) ∧
    (∀ s1 s2 s3 s4 : ℚ, ∃ p, addAll (NewPing 3) [s1, s2, s3, s4] = some p ∧
      p.Avg = s4 / 4 ∧ p.Max = max 0 s4 ∧ p.Min = s4)) :=
  ⟨by decide, by decide, AddData_warm_up 3 (by decide) (by decide)⟩

/-- C9: for every window state with `CurrSize > 2` and `Min ≥ 0` on which
`AddData(0)` completes, that call leaves `Min = 0`, and for every sample `d`
the next call `AddData(d)` completes and sets `Min` to `d` itself; so with
capacity 100 the samples 30, 30, 10, 5, 0, 50 end with `Min = 50`, above the
contributed samples 5 and 0. -/
theorem Min_reset_after_zero_sample (p : Ping) (d : ℚ) (hc : p.CurrSize > 2)
    (hmin : 0 ≤ p.Min) (hmax : p.MaxSize ≤ maxInt) (hok : (AddData p 0).isSome = true) :
    (∃ p1, AddData p 0 = some p1 ∧ p1.Min = 0 ∧
      ∃ p2, AddData p1 d = some p2 ∧ p2.Min = d) ∧
    (∃ q, addAll (NewPing 100) [30, 30, 10, 5, 0, 50] = some q ∧ q.Min = 50) := by
  constructor
  · obtain ⟨p1, h1⟩ := Option.isSome_iff_exists.mp hok
    obtain ⟨_, _, hN, _, hS, hist, rest, hD, hne⟩ := AddData_result p p1 0 h1
    have hm1 : p1.Min = 0 := by
      rw [hN, updateAggregates, if_pos hc]
      by_cases h0 : p.Min = 0
      · simp [h0]
      · simp [h0, hmin]
    have hc1 : p1.CurrSize > 2 := by
      rcases hS with hS | ⟨hlt, hS⟩
      · omega
      · rw [hS, wrapInt_of_range] <;> omega
    obtain ⟨p2, h2⟩ := AddData_of_nonempty p1 d hist rest hD hne
    obtain ⟨_, _, hN2, _⟩ := AddData_result p1 p2 d h2
    refine ⟨p1, h1, hm1, p2, h2, ?_⟩
    rw [hN2, updateAggregates, if_pos hc1]
    simp [hm1]
  · simp [addAll, AddData, updateAggregates, updateHistory, NewPing, wrapInt]

theorem Min_reset_after_zero_sample_witness :
    ((⟨[[3, 4, 5]], 3, 100, 4, 5, 3⟩ : Ping).CurrSize > 2 ∧
    0 ≤ (⟨[[3, 4, 5]], 3, 100, 4, 5, 3⟩ : Ping).Min ∧
    (⟨[[3, 4, 5]], 3, 100, 4, 5, 3⟩ : Ping).MaxSize ≤ maxInt ∧
    (AddData ⟨[[3, 4, 5]], 3, 100, 4, 5, 3⟩ 0).isSome = true) ∧
    ((∃ p1, AddData ⟨[[3, 4, 5]], 3, 100, 4, 5, 3⟩ 0 = some p1 ∧ p1.Min = 0 ∧
      ∃ p2, AddData p1 7 = some p2 ∧ p2.Min = 7) ∧
    (∃ q, addAll (NewPing 100) [30, 30, 10, 5, 0, 50] = some q ∧ q.Min = 50)) :=
  ⟨⟨by decide, by decide, by decide, by decide⟩,
    Min_reset_after_zero_sample ⟨[[3, 4, 5]], 3, 100, 4, 5, 3⟩ 7
      (by decide) (by decide) (by decide) (by decide)⟩

/-! ## The latency extractor -/

theorem lazyDigits_capture (s g : List Char) (h : lazyDigits s = some g) :
    g ≠ [] ∧ ∀ c ∈ g, isDigit c = true := by
  induction s generalizing g with
  | nil => simp [lazyDigits] at h
  | cons c cs ih =>
    by_cases hc : isDigit c = true
    · rw [lazyDigits_cons c cs hc] at h
      by_cases hs : lazySpaceMs cs = true
      · rw [if_pos hs] at h
        cases h
        exact ⟨by simp, by simpa using hc⟩
      · rw [if_neg hs] at h
        cases hl : lazyDigits cs with
        | none => simp [hl] at h
        | some g2 =>
          rw [hl] at h
          cases h
          refine ⟨by simp, ?_⟩
          intro x hx
          rcases List.mem_cons.mp hx with rfl | hx
          · exact hc
          · exact (ih g2 hl).2 x hx
    · simp [lazyDigits, hc] at h

theorem optDot_capture (s g : List Char) (h : optDot s = some g) :
    (g ≠ [] ∧ ∀ c ∈ g, isDigit c = true) ∨
      ∃ f, g = '.' :: f ∧ f ≠ [] ∧ ∀ c ∈ f, isDigit c = true := by
  cases s with
  | nil => simp [optDot, lazyDigits] at h
  | cons c cs =>
    by_cases hc : c = '.'
    · rw [optDot, if_pos hc] at h
      cases hl : lazyDigits cs with
      | none =>
        rw [hl] at h
        exact Or.inl (lazyDigits_capture _ g h)
      | some g2 =>
        rw [hl] at h
        cases h
        exact Or.inr ⟨g2, by rw [hc], lazyDigits_capture cs g2 hl⟩
    · rw [optDot_nondot c cs hc] at h
      exact Or.inl (lazyDigits_capture _ g h)

theorem greedyDigits_capture (s g : List Char) (h : greedyDigits s = some g) :
    ∃ ip fr, g = ip ++ fr ∧ ip ≠ [] ∧ (∀ c ∈ ip, isDigit c = true) ∧
      ((fr ≠ [] ∧ ∀ c ∈ fr, isDigit c = true) ∨
        ∃ f, fr = '.' :: f ∧ f ≠ [] ∧ ∀ c ∈ f, isDigit c = true) := by
  induction s generalizing g with
  | nil => simp [greedyDigits] at h
  | cons c cs ih =>
    by_cases hc : isDigit c = true
    · rw [greedyDigits_cons c cs hc] at h
      cases hg : greedyDigits cs with
      | some g2 =>
        rw [hg] at h
        cases h
        obtain ⟨ip, fr, rfl, _, hd, hfr⟩ := ih g2 hg
        refine ⟨c :: ip, fr, rfl, by simp, ?_, hfr⟩
        intro x hx
        rcases List.mem_cons.mp hx with rfl | hx
        · exact hc
        · exact hd x hx
      | none =>
        rw [hg] at h
        cases ho : optDot cs with
        | none => simp [ho] at h
        | some g2 =>
          rw [ho] at h
          cases h
          exact ⟨[c], g2, rfl, by simp, by simpa using hc, optDot_capture cs g2 ho⟩
    · simp [greedyDigits, hc] at h

/-- The text captured by the pattern is always a well-formed decimal literal:
the conversion can fail on it only by overflow. -/
theorem FindStringSubmatch_capture (s g : List Char) (h : FindStringSubmatch s = some g) :
    (decimalValue g).isSome = true := by
  induction s with
  | nil => simp [FindStringSubmatch] at h
  | cons c cs ih =>
    rw [FindStringSubmatch] at h
    cases hg : greedyDigits (c :: cs) with
    | none =>
      rw [hg] at h
      exact ih h
    | some g2 =>
      rw [hg] at h
      cases h
      obtain ⟨ip, fr, rfl, hne, hd, hfr | ⟨f, rfl, hfne, hfd⟩⟩ := greedyDigits_capture _ _ hg
      · have hall : ∀ x ∈ ip ++ fr, isDigit x = true := by
          intro x hx
          rcases List.mem_append.mp hx with hx | hx
          · exact hd x hx
          · exact hfr.2 x hx
        rw [decimalValue_integer (ip ++ fr) (by simp [hne]) hall]
        rfl
      · rw [decimalValue_fraction ip f hd hfne hfd]
        rfl

/-- A single digit in front of the unit marker is passed over: the search
goes on in the rest of the line. -/
theorem parseLatency_single_digit (pre suf : List Char) (c : Char)
    (hpre : ∀ x ∈ pre, isDigit x = false) (hc : isDigit c = true) :
    parseLatency (pre ++ c :: 'm' :: 's' :: suf) = parseLatency suf := by
  have hf : FindStringSubmatch (pre ++ c :: 'm' :: 's' :: suf) = FindStringSubmatch suf := by
    rw [FindStringSubmatch_skip pre _ hpre, FindStringSubmatch, greedyDigits_single c suf hc]
    exact FindStringSubmatch_skip ['m', 's'] suf (by decide)
  unfold parseLatency
  rw [hf]

/-- C4, as stated, fails at two lines of the shape it describes. The line
`time=` followed by the numeral 2 and 308 zeros (the number 2e308) and `ms`:
the pattern captures the numeral and the conversion overflows `float64`, so
`parseLatency` returns 0 and the conversion error. The line `time=5ms`: the
pattern needs two digits, nothing matches, and `parseLatency` returns 0 and
the "no match" error. -/
theorem parseLatency_rejects_numerals :
    parseLatency (['t', 'i', 'm', 'e', '='] ++ numeral ('2' :: List.replicate 308 '0') []
      ++ ['m', 's'] ++ []) = (0, some LatencyError.convert) ∧
    parseLatency (['t', 'i', 'm', 'e', '='] ++ numeral ['5'] [] ++ ['m', 's'] ++ [])
      = (0, some LatencyError.noMatch) := by
  constructor
  · decide!
  · decide

/-- C4, amended: for every line `prefix ++ numeral ++ "ms" ++ suffix` where
`prefix` has no digit and the numeral is one or more digits optionally
followed by a dot and one or more digits, and has at least two characters:
when the number it denotes is below the `float64` overflow threshold,
`parseLatency` succeeds and returns that number; otherwise it returns 0 and
the conversion error. -/
theorem parseLatency_numeral (pre ip fp suf : List Char)
    (hpre : ∀ c ∈ pre, isDigit c = false) (hne : ip ≠ [])
    (hip : ∀ c ∈ ip, isDigit c = true) (hfp : ∀ c ∈ fp, isDigit c = true)
    (h2 : 2 ≤ (numeral ip fp).length) :
    parseLatency (pre ++ numeral ip fp ++ ['m', 's'] ++ suf) =
      if numeralValue ip fp < float64Overflow then (numeralValue ip fp, none)
      else (0, some LatencyError.convert) := by
  have hcap : FindStringSubmatch (pre ++ numeral ip fp ++ ['m', 's'] ++ suf)
        = some (numeral ip fp) ∧ decimalValue (numeral ip fp) = some (numeralValue ip fp) := by
    by_cases hf : fp = []
    · subst hf
      simp only [numeral, if_true] at h2 ⊢
      have hv : numeralValue ip [] = (natOfDigits ip : ℚ) := by
        simp [numeralValue, natOfDigits]
      refine ⟨?_, by rw [hv]; exact decimalValue_integer ip hne hip⟩
      rw [List.append_assoc, List.append_assoc, FindStringSubmatch_skip pre _ hpre]
      exact FindStringSubmatch_of_greedy _ _ (greedyDigits_integer ip suf h2 hip)
    · simp only [numeral, if_neg hf]
      refine ⟨?_, decimalValue_fraction ip fp hip hf hfp⟩
      have hshape : pre ++ (ip ++ '.' :: fp) ++ ['m', 's'] ++ suf
          = pre ++ (ip ++ '.' :: (fp ++ 'm' :: 's' :: suf)) := by simp
      rw [hshape, FindStringSubmatch_skip pre _ hpre]
      exact FindStringSubmatch_of_greedy _ _ (greedyDigits_fraction ip fp suf hne hip hf hfp)
  unfold parseLatency ParseFloat
  rw [hcap.1]
  simp only [hcap.2]
  by_cases hr : numeralValue ip fp < float64Overflow
  · simp [hr, not_le.mpr hr]
  · simp [hr, not_lt.mp hr]

theorem parseLatency_numeral_witness :
    ((∀ c ∈ ['t', 'i', 'm', 'e', '='], isDigit c = false) ∧ ['2', '3'] ≠ [] ∧
      (∀ c ∈ ['2', '3'], isDigit c = true) ∧ (∀ c ∈ ['4'], isDigit c = true) ∧
      2 ≤ (numeral ['2', '3'] ['4']).length) ∧
    parseLatency (['t', 'i', 'm', 'e', '='] ++ numeral ['2', '3'] ['4'] ++ ['m', 's'] ++ []) =
      if numeralValue ['2', '3'] ['4'] < float64Overflow
      then (numeralValue ['2', '3'] ['4'], none)
      else (0, some LatencyError.convert) :=
  ⟨⟨by decide, by decide, by decide, by decide, by decide⟩,
    parseLatency_numeral ['t', 'i', 'm', 'e', '='] ['2', '3'] ['4'] []
      (by decide) (by decide) (by decide) (by decide) (by decide)⟩

/-- The lines `time=23.4ms` and `time=12ms` yield 23.4 and 12. -/
theorem parseLatency_examples :
    parseLatency ['t', 'i', 'm', 'e', '=', '2', '3', '.', '4', 'm', 's'] = (117 / 5, none) ∧
    parseLatency ['t', 'i', 'm', 'e', '=', '1', '2', 'm', 's'] = (12, none) := by
  constructor <;> decide!

/-- C5: for every input that does not contain the substring `ms`,
`parseLatency` returns the value 0 and the "no match" error. -/
theorem parseLatency_without_ms (s : List Char) (h : ¬ ['m', 's'] <:+: s) :
    parseLatency s = (0, some LatencyError.noMatch) := by
  cases hf : FindStringSubmatch s with
  | none => simp [parseLatency, hf]
  | some g => exact absurd (FindStringSubmatch_has_ms s g hf) h

theorem parseLatency_without_ms_witness :
    (¬ ['m', 's'] <:+: ['t', 't', 'l', '=', '6', '4', ' ', 'm']) ∧
    parseLatency ['t', 't', 'l', '=', '6', '4', ' ', 'm'] = (0, some LatencyError.noMatch) :=
  ⟨by decide, parseLatency_without_ms ['t', 't', 'l', '=', '6', '4', ' ', 'm'] (by decide)⟩

end Pingg
